import Mathlib

/-!
# Verification of the WhatsApp-notifications integration

Shallow embedding of the repository's core logic: the phone normalizer,
the message-log state machine with its retry scheduler, the rule matcher
and recipient resolver, and the client-side helpers
`format_whatsapp_text`, `format_file_size` and `get_phone_from_doc`.

Components whose implementation is not part of the shipped sources
(the backend Python pipeline) are modelled from the specification and
are marked as such in their doc comments; everything else is translated
directly from the JavaScript sources.
-/

namespace WhatsappIntegration

/-! ## Phone normalizer (§4.1) -/

/-- Configuration of the phone normalizer: the default country code,
the "local length" of a national number for the active country, and the
minimum number of digits a dialable number must keep after stripping. -/
structure PhoneConfig where
  countryCode : List Char
  localLength : Nat
  minDigits : Nat := 7
deriving Repr, DecidableEq

/-- Strip every character except digits.  In the source the stripping
step keeps a leading plus sign and then drops it, which is the same as
keeping only the digits. -/
def stripPhone (s : List Char) : List Char :=
  s.filter (fun c => c.isDigit)

/-- `leadsWith p s` is true when `p` occurs at the very start of `s`. -/
def leadsWith : List Char → List Char → Bool
  | [], _ => true
  | _ :: _, [] => false
  | p :: ps, x :: xs => p == x && leadsWith ps xs

/-- Modelled from the spec: the backend phone normalizer (§4.1), whose
Python implementation is not among the shipped sources.  Steps, in
order: strip all characters except digits and a leading plus; drop the
plus; if the remaining digit count matches the configured local length
and the number does not already start with the configured country code,
prepend the default country code; otherwise pass through unchanged.
Fails (`none`, the `InvalidPhoneError` of the spec) when fewer than
`minDigits` digits remain after stripping. -/
def normalize_phone (cfg : PhoneConfig) (s : List Char) : Option (List Char) :=
  let d := stripPhone s
  if d.length < cfg.minDigits then none
  else if d.length = cfg.localLength ∧ leadsWith cfg.countryCode d = false then
    some (cfg.countryCode ++ d)
  else some d

/-- The Mozambique configuration used by the spec's worked examples:
default country code 258, local numbers of 9 digits. -/
def cfg258 : PhoneConfig := ⟨"258".data, 9, 7⟩

/-- Client-side display formatter `frappe.whatsapp.format_phone` from
`whatsapp_notifications/public/js/whatsapp_notifications.js`: removes
the non-digits and puts a plus in front of numbers longer than nine
digits.  It is a display helper, distinct from the backend normalizer
modelled above. -/
def format_phone (phone : String) : String :=
  if phone = "" then ""
  else
    let cleaned := phone.data.filter (fun c => c.isDigit)
    if 9 < cleaned.length then String.mk ('+' :: cleaned)
    else String.mk cleaned

/-! ## Message-log state machine (§3, §4.3) -/

/-- The eight statuses of a `WhatsApp Message Log` entry. -/
inductive Status where
  | pending | queued | sending | sent | delivered | read | failed | cancelled
deriving Repr, DecidableEq

/-- A message-log entry: the durable record of one send attempt.
`last_updated` is an abstract timestamp used by the retry scheduler. -/
structure LogEntry where
  status : Status
  retry_count : Nat
  error : Option String := none
  providerId : Option String := none
  last_updated : Nat := 0
  recipient : List Char := []
  message : String := ""
deriving Repr, DecidableEq

/-- The operations that may be attempted on a message-log entry.
`sendResult` carries the transport's optional provider message id;
`sweep` is the periodic recovery of entries stuck in `Sending`. -/
inductive Action where
  | enqueue
  | startSend
  | sendResult (id : Option String)
  | transportError (msg : String)
  | webhookDelivered
  | webhookRead
  | cancel
  | retry
  | sweep
deriving Repr, DecidableEq

/-- Modelled from the spec: the state-guarded transition function of the
message-log state machine (§4.3), whose backend implementation is not
among the shipped sources.  Every transition is a conditional update
applied only when the entry is still in the expected source state;
`none` is the spec's `StateConflictError` no-op. -/
def step (a : Action) (e : LogEntry) : Option LogEntry :=
  match a with
  | .enqueue =>
      if e.status = .pending then some { e with status := .queued } else none
  | .startSend =>
      if e.status = .queued then some { e with status := .sending } else none
  | .sendResult id =>
      if e.status = .sending then
        match id with
        | some m => some { e with status := .sent, providerId := some m }
        | none => some { e with status := .failed,
                                error := some "no message id returned",
                                retry_count := e.retry_count + 1 }
      else none
  | .transportError msg =>
      if e.status = .sending then
        some { e with status := .failed, error := some msg,
                      retry_count := e.retry_count + 1 }
      else none
  | .webhookDelivered =>
      if e.status = .sent then some { e with status := .delivered } else none
  | .webhookRead =>
      if e.status = .delivered then some { e with status := .read } else none
  | .cancel =>
      if e.status = .pending ∨ e.status = .queued then
        some { e with status := .cancelled }
      else none
  | .retry =>
      if e.status = .failed ∨ e.status = .cancelled then
        some { e with status := .queued }
      else none
  | .sweep =>
      if e.status = .sending then
        some { e with status := .failed, error := some "send timeout",
                      retry_count := e.retry_count + 1 }
      else none

/-! ## Retry scheduler (§4.4) -/

/-- Retry-scheduler configuration: the maximum number of automatic
attempts (default 3), the base backoff interval and the cap on the
backoff interval. -/
structure RetryConfig where
  maxRetries : Nat := 3
  baseInterval : Nat
  maxInterval : Nat
deriving Repr, DecidableEq

/-- Modelled from the spec: the next time (§4.4) at which a failed entry
becomes eligible for automatic retry —
`last_updated + base_interval * 2 ^ retry_count`, capped at the maximum
interval. -/
def nextEligible (cfg : RetryConfig) (e : LogEntry) : Nat :=
  e.last_updated + min (cfg.baseInterval * 2 ^ e.retry_count) cfg.maxInterval

/-- Modelled from the spec: a failed entry is selected by a scheduler
tick exactly when its status is `Failed`, its retry count is strictly
below the maximum, and the backoff window has elapsed. -/
def autoEligible (cfg : RetryConfig) (now : Nat) (e : LogEntry) : Prop :=
  e.status = .failed ∧ e.retry_count < cfg.maxRetries ∧ nextEligible cfg e ≤ now

instance (cfg : RetryConfig) (now : Nat) (e : LogEntry) :
    Decidable (autoEligible cfg now e) := by
  unfold autoEligible; infer_instance

/-- Modelled from the spec: the effect of one scheduler tick on one
entry — eligible entries are transitioned to `Queued` by the same
state-guarded `retry` transition, all others are left untouched. -/
def tickEntry (cfg : RetryConfig) (now : Nat) (e : LogEntry) : LogEntry :=
  if autoEligible cfg now e then (step .retry e).getD e else e

/-! ## Rule matcher (§4.2) and recipient resolver (§4.5) -/

/-- The five lifecycle events a notification rule can be bound to. -/
inductive EventType where
  | insert | update | submit | cancelEvent | change
deriving Repr, DecidableEq

/-- A document-lifecycle event: its type, the document type it concerns
and, for change events, the field that changed. -/
structure Event where
  etype : EventType
  doctype : String
  changedField : Option String := none
deriving Repr, DecidableEq

/-- A notification rule, restricted to the fields the matcher and the
field-value resolver read. -/
structure Rule where
  enabled : Bool
  document_type : String
  event : EventType
  value_changed : Option String := none
  condition : Option String := none
  phone_field : String := ""
deriving Repr, DecidableEq

/-- Modelled from the spec: the structural part of rule matching (§4.2)
— enabled, same document type, same trigger event, and for change
events the configured changed-field filter. -/
def structMatch (ev : Event) (r : Rule) : Bool :=
  r.enabled && decide (r.document_type = ev.doctype) && decide (r.event = ev.etype) &&
    (match ev.etype with
     | .change => decide (r.value_changed = ev.changedField)
     | _ => true)

/-- Modelled from the spec: per-rule condition evaluation.  `evalC` is
the template-renderer adapter's boolean-eval capability; an absent
condition passes, an evaluation error (`EvalError`) excludes just this
rule. -/
def condOk (evalC : Rule → Except String Bool) (r : Rule) : Bool :=
  match r.condition with
  | none => true
  | some _ =>
    match evalC r with
    | .ok b => b
    | .error _ => false

/-- Modelled from the spec: the rule matcher — keep the rules that match
structurally and whose condition is absent or evaluates truthy, in the
original (creation) order. -/
def matchRules (evalC : Rule → Except String Bool) (ev : Event)
    (rules : List Rule) : List Rule :=
  rules.filter (fun r => structMatch ev r && condOk evalC r)

/-- Modelled from the spec: each resolved recipient passes through the
phone normalizer and individual failures are dropped (§4.5). -/
def normalizeBatch (cfg : PhoneConfig) (phones : List (List Char)) : List (List Char) :=
  phones.filterMap (normalize_phone cfg)

/-- A fresh queued message-log entry for one recipient. -/
def mkEntry (phone : List Char) (body : String) : LogEntry :=
  { status := .queued, retry_count := 0, recipient := phone, message := body }

/-- Modelled from the spec: processing of one matched rule by the
dispatch engine (§4.6) — a render error yields a single `Failed` audit
entry and no transport attempt; otherwise one queued entry per
successfully normalized recipient. -/
def processRule (render : Rule → Except String String)
    (resolve : Rule → List (List Char)) (cfg : PhoneConfig) (r : Rule) :
    List LogEntry :=
  match render r with
  | .error msg => [{ status := .failed, retry_count := 0, error := some msg }]
  | .ok body => (normalizeBatch cfg (resolve r)).map (fun p => mkEntry p body)

/-- Modelled from the spec: the dispatch engine processes the matched
rules one by one; the outcome is the per-rule list of created log
entries. -/
def dispatchMatched (render : Rule → Except String String)
    (resolve : Rule → List (List Char)) (cfg : PhoneConfig)
    (rules : List Rule) : List (List LogEntry) :=
  rules.map (processRule render resolve cfg)

/-! ## Document field paths (`frappe.whatsapp.get_phone_from_doc`) -/

/-- A JavaScript value as the client script sees a document: undefined,
null, string, number, or an object with named fields. -/
inductive JSVal where
  | undef
  | null
  | str (s : String)
  | num (n : Int)
  | obj (fields : List (String × JSVal))
deriving Repr

/-- JavaScript truthiness for the values of `JSVal`. -/
def truthy : JSVal → Bool
  | JSVal.undef => false
  | .null => false
  | .str s => decide (s ≠ "")
  | .num n => decide (n ≠ 0)
  | .obj _ => true

/-- `value[part]` on an object: the first field with the given name, or
undefined. -/
def getField (fs : List (String × JSVal)) (k : String) : JSVal :=
  match fs.find? (fun p => p.1 == k) with
  | some p => p.2
  | none => JSVal.undef

/-- `field_path.split('.')`: split a path at the dots, keeping empty
segments. -/
def splitDotsAux (acc : List Char) : List Char → List String
  | [] => [String.mk acc.reverse]
  | c :: cs =>
    if c = '.' then String.mk acc.reverse :: splitDotsAux [] cs
    else splitDotsAux (c :: acc) cs

/-- Split a field path at `.` into its parts. -/
def splitDots (s : List Char) : List String := splitDotsAux [] s

/-- The loop of `get_phone_from_doc`: walk one path segment at a time;
any non-object on the way ends the walk with the empty string, and a
falsy final value is also replaced by the empty string. -/
def phone_path_walk : JSVal → List String → JSVal
  | v, [] => if truthy v then v else .str ""
  | v, p :: ps =>
    match v with
    | .obj fs => phone_path_walk (getField fs p) ps
    | _ => .str ""

/-- `frappe.whatsapp.get_phone_from_doc` from
`whatsapp_notifications/public/js/whatsapp_notifications.js`: read a
phone value out of a (possibly nested) document along a dot-path,
returning the empty string for an empty path, a missing field, or a
falsy value. -/
def get_phone_from_doc (doc : JSVal) (field_path : String) : JSVal :=
  if field_path = "" then .str ""
  else phone_path_walk doc (splitDots field_path.data)

/-- Modelled from the spec: the `FieldValue` recipient resolution (§4.5)
on top of `get_phone_from_doc` — an empty value resolves to nobody, a
non-empty string value to that one raw phone. -/
def resolveFieldValue (doc : JSVal) (pf : String) : List (List Char) :=
  match get_phone_from_doc doc pf with
  | .str s => if s = "" then [] else [s.data]
  | _ => []

/-- Modelled from the spec: dispatch of one `FieldValue` rule — always
succeeds (`Except.ok`), creating one entry per normalized recipient. -/
def dispatchFieldValue (cfg : PhoneConfig) (doc : JSVal) (pf : String)
    (body : String) : Except String (List LogEntry) :=
  .ok ((normalizeBatch cfg (resolveFieldValue doc pf)).map (fun p => mkEntry p body))

/-! ## File sizes (`frappe.whatsapp.format_file_size`) -/

/-- The unit array of `format_file_size`. -/
def sizes : List String := ["B", "KB", "MB", "GB"]

/-- The array index `Math.floor(Math.log(bytes) / Math.log(1024))`
computed by `format_file_size`, under exact real semantics:
the floor of the base-1024 logarithm. -/
def file_size_index (bytes : Nat) : Nat := Nat.log 1024 bytes

/-- The unit chosen by `frappe.whatsapp.format_file_size`: `B` through
the `'0 B'` early return for zero, otherwise `sizes[i]`, with `none`
for an access outside the bounds of the unit array.  The displayed
number (`bytes / 1024 ^ i` rounded to two decimals) is display-only and
not modelled. -/
def format_file_size_unit (bytes : Nat) : Option String :=
  if bytes = 0 then some "B" else sizes[file_size_index bytes]?

/-! ## WhatsApp text formatting (`format_whatsapp_text`) -/

/-- The backtick character, the delimiter of monospace spans. -/
def charBacktick : Char := Char.ofNat 96

/-- The double-quote character. -/
def charQuote : Char := Char.ofNat 34

/-- The apostrophe character. -/
def charApos : Char := Char.ofNat 39

/-- HTML escaping of one character, as `frappe.utils.escape_html` (the
host framework's escaper, external to this repository) performs it:
the five HTML-special characters become entities, everything else is
kept. -/
def escChar (c : Char) : List Char :=
  if c = '&' then "&amp;".data
  else if c = '<' then "&lt;".data
  else if c = '>' then "&gt;".data
  else if c = charQuote then "&quot;".data
  else if c = charApos then "&#039;".data
  else [c]

/-- HTML-escape a whole text, character by character. -/
def escapeHtml : List Char → List Char
  | [] => []
  | c :: cs => escChar c ++ escapeHtml cs

/-- One matching step of the regex `/d([^d]+)d/`: given the characters
after an opening delimiter, find the non-empty run of non-delimiter
characters up to the closing delimiter.  `none` when the next character
is already the delimiter (empty capture) or no closing delimiter
follows. -/
def findSpan (d : Char) : List Char → Option (List Char × List Char)
  | [] => none
  | [_] => none
  | x :: y :: ys =>
    if x = d then none
    else if y = d then some ([x], ys)
    else (findSpan d (y :: ys)).map (fun pr => (x :: pr.1, pr.2))

lemma findSpan_eq (d : Char) :
    ∀ (xs run rest : List Char), findSpan d xs = some (run, rest) →
      xs = run ++ d :: rest ∧ run ≠ [] ∧ d ∉ run := by
  intro xs
  induction xs with
  | nil => intro run rest h; simp [findSpan] at h
  | cons x xs ih =>
    cases xs with
    | nil => intro run rest h; simp [findSpan] at h
    | cons y ys =>
      intro run rest h
      simp only [findSpan] at h
      by_cases hx : x = d
      · simp [hx] at h
      · rw [if_neg hx] at h
        by_cases hy : y = d
        · rw [if_pos hy, Option.some_inj] at h
          obtain ⟨hrun, hrest⟩ := Prod.mk.inj h
          subst hrun hrest
          refine ⟨by simp [hy], by simp, ?_⟩
          simp only [List.mem_singleton]
          exact fun hh => hx hh.symm
        · rw [if_neg hy] at h
          cases hfs : findSpan d (y :: ys) with
          | none => rw [hfs] at h; simp at h
          | some pr =>
            obtain ⟨run', rest'⟩ := pr
            rw [hfs] at h
            simp only [Option.map_some', Option.some_inj] at h
            obtain ⟨hrun, hrest⟩ := Prod.mk.inj h
            obtain ⟨hxs, hne, hmem⟩ := ih run' rest' hfs
            subst hrun hrest
            refine ⟨by rw [hxs]; rfl, by simp, ?_⟩
            simp only [List.mem_cons, not_or]
            exact ⟨fun hh => hx hh.symm, hmem⟩

lemma findSpan_rest_length (d : Char) (xs run rest : List Char)
    (h : findSpan d xs = some (run, rest)) : rest.length < xs.length := by
  obtain ⟨hxs, hne, -⟩ := findSpan_eq d xs run rest h
  subst hxs
  have : 1 ≤ run.length := List.length_pos.mpr hne
  simp only [List.length_append, List.length_cons]
  omega

/-- The global replace `text.replace(/d([^d]+)d/g, o + '$1' + c)` for a
single-character delimiter `d` and fixed opening/closing replacement
texts, scanning left to right exactly as the JavaScript regex engine
does. -/
def spanRepl (d : Char) (o c : List Char) : List Char → List Char
  | [] => []
  | x :: xs =>
    if x = d then
      match h : findSpan d xs with
      | some (run, rest) => o ++ run ++ c ++ spanRepl d o c rest
      | none => x :: spanRepl d o c xs
    else x :: spanRepl d o c xs
termination_by s => s.length
decreasing_by
  all_goals simp only [List.length_cons]
  · have hlt := findSpan_rest_length _ _ _ _ h
    omega
  · omega
  · omega

lemma spanRepl_nil (d : Char) (o c : List Char) : spanRepl d o c [] = [] := by
  rw [spanRepl]

lemma spanRepl_cons_ne (d : Char) (o c : List Char) (x : Char) (xs : List Char)
    (hx : x ≠ d) : spanRepl d o c (x :: xs) = x :: spanRepl d o c xs := by
  rw [spanRepl, if_neg hx]

lemma spanRepl_cons_d_some (d : Char) (o c : List Char) (xs run rest : List Char)
    (h : findSpan d xs = some (run, rest)) :
    spanRepl d o c (d :: xs) = o ++ (run ++ (c ++ spanRepl d o c rest)) := by
  rw [spanRepl, if_pos rfl]
  split
  · next run' rest' heq =>
      rw [h] at heq
      simp only [Option.some_inj, Prod.mk.injEq] at heq
      rw [heq.1, heq.2]
      simp [List.append_assoc]
  · next heq => rw [h] at heq; cases heq

lemma spanRepl_cons_d_none (d : Char) (o c : List Char) (xs : List Char)
    (h : findSpan d xs = none) :
    spanRepl d o c (d :: xs) = d :: spanRepl d o c xs := by
  rw [spanRepl, if_pos rfl]
  split
  · next run' rest' heq => rw [h] at heq; cases heq
  · rfl

lemma spanRepl_append_no_d (d : Char) (o c : List Char) (u t : List Char)
    (hu : d ∉ u) : spanRepl d o c (u ++ t) = u ++ spanRepl d o c t := by
  induction u with
  | nil => simp
  | cons a u ih =>
    have ha : a ≠ d := fun hh => hu (hh ▸ List.mem_cons_self a u)
    have hu' : d ∉ u := fun hh => hu (List.mem_cons_of_mem a hh)
    simp only [List.cons_append]
    rw [spanRepl_cons_ne d o c a _ ha, ih hu']

/-- `format_whatsapp_text` from the `WhatsApp Message Log` client
script: HTML-escape the message, then rewrite `*bold*`, `_italic_`,
`~strike~` and backtick-delimited monospace spans into `<b>`, `<i>`,
`<s>` and `<code>` elements, in that order. -/
def format_whatsapp_text (s : List Char) : List Char :=
  spanRepl charBacktick "<code>".data "</code>".data
    (spanRepl '~' "<s>".data "</s>".data
      (spanRepl '_' "<i>".data "</i>".data
        (spanRepl '*' "<b>".data "</b>".data (escapeHtml s))))

/-- The four span delimiters of WhatsApp formatting. -/
def delims : List Char := ['*', '_', '~', charBacktick]

/-- The thirteen blocks that may legitimately carry a `<`, `>` or `&`
in formatted output: the four generated element tags, opening and
closing, and the five escape entities. -/
def blockList : List (List Char) :=
  ["<b>".data, "</b>".data, "<i>".data, "</i>".data, "<s>".data, "</s>".data,
   "<code>".data, "</code>".data,
   "&amp;".data, "&lt;".data, "&gt;".data, "&quot;".data, "&#039;".data]

/-- A character list is made of blocks: plain characters other than
`<`, `>` and `&`, interleaved with complete tags and complete escape
entities from `blockList`.  This is the claim's safety shape: every
angle bracket or ampersand sits inside a generated tag or an entity. -/
inductive Blocks : List Char → Prop where
  | nil : Blocks []
  | chr (c : Char) (h : c ≠ '<' ∧ c ≠ '>' ∧ c ≠ '&') (t : List Char) :
      Blocks t → Blocks (c :: t)
  | blk (b : List Char) (hb : b ∈ blockList) (t : List Char) :
      Blocks t → Blocks (b ++ t)

/-! ## Lemmas about the block grammar of formatted output -/

lemma delim_not_in_blockList : ∀ d ∈ delims, ∀ b ∈ blockList, d ∉ b := by decide

lemma blockList_ne_nil : ∀ b ∈ blockList, b ≠ [] := by decide

lemma blocks_inv : ∀ s, Blocks s →
    s = [] ∨
    (∃ c t, s = c :: t ∧ (c ≠ '<' ∧ c ≠ '>' ∧ c ≠ '&') ∧ Blocks t) ∨
    (∃ b t, s = b ++ t ∧ b ∈ blockList ∧ Blocks t) := by
  intro s h
  cases h with
  | nil => exact Or.inl rfl
  | chr c hc t ht => exact Or.inr (Or.inl ⟨c, t, rfl, hc, ht⟩)
  | blk b hb t ht => exact Or.inr (Or.inr ⟨b, t, rfl, hb, ht⟩)

lemma blocks_append : ∀ (a b : List Char), Blocks a → Blocks b → Blocks (a ++ b) := by
  intro a b ha hb
  induction ha with
  | nil => simpa using hb
  | chr c hc t ht ih =>
    simp only [List.cons_append]
    exact Blocks.chr c hc _ ih
  | blk bl hbl t ht ih =>
    rw [List.append_assoc]
    exact Blocks.blk bl hbl _ ih

lemma blocks_cons_delim_inv (d : Char) (hd : d ∈ delims) (t : List Char) :
    Blocks (d :: t) → Blocks t := by
  intro h
  rcases blocks_inv _ h with h0 | ⟨c, t', heq, hc, ht⟩ | ⟨b, t', heq, hb, ht⟩
  · cases h0
  · injection heq with h1 h2
    rw [h2]
    exact ht
  · exfalso
    cases b with
    | nil => exact blockList_ne_nil [] hb rfl
    | cons x b' =>
      rw [List.cons_append] at heq
      injection heq with h1 h2
      exact delim_not_in_blockList d hd _ hb (h1 ▸ List.mem_cons_self x b')

lemma append_eq_append_mid (d : Char) :
    ∀ (b t s₁ s₂ : List Char), b ++ t = s₁ ++ d :: s₂ → d ∉ b → d ∉ s₁ →
      ∃ u, s₁ = b ++ u ∧ t = u ++ d :: s₂ := by
  intro b
  induction b with
  | nil =>
    intro t s₁ s₂ h _ _
    exact ⟨s₁, rfl, by simpa using h⟩
  | cons x b' ih =>
    intro t s₁ s₂ h hdb hds
    cases s₁ with
    | nil =>
      exfalso
      simp only [List.cons_append, List.nil_append] at h
      injection h with h1 h2
      exact hdb (h1 ▸ List.mem_cons_self x b')
    | cons y s₁' =>
      simp only [List.cons_append] at h
      injection h with h1 h2
      have hdb' : d ∉ b' := fun hh => hdb (List.mem_cons_of_mem x hh)
      have hds' : d ∉ s₁' := fun hh => hds (List.mem_cons_of_mem y hh)
      obtain ⟨u, hu1, hu2⟩ := ih t s₁' s₂ h2 hdb' hds'
      exact ⟨u, by rw [List.cons_append, ← h1, hu1], hu2⟩

lemma blocks_split (d : Char) (hd : d ∈ delims) :
    ∀ (n : Nat) (s₁ s₂ : List Char), s₁.length ≤ n →
      Blocks (s₁ ++ d :: s₂) → d ∉ s₁ → Blocks s₁ ∧ Blocks s₂ := by
  intro n
  induction n with
  | zero =>
    intro s₁ s₂ hlen hB hmem
    have hnil : s₁ = [] := List.eq_nil_of_length_eq_zero (Nat.le_zero.mp hlen)
    subst hnil
    exact ⟨Blocks.nil, blocks_cons_delim_inv d hd s₂ (by simpa using hB)⟩
  | succ n ih =>
    intro s₁ s₂ hlen hB hmem
    cases s₁ with
    | nil => exact ⟨Blocks.nil, blocks_cons_delim_inv d hd s₂ (by simpa using hB)⟩
    | cons x s₁' =>
      rcases blocks_inv _ hB with h0 | ⟨c, t, heq, hc, ht⟩ | ⟨b, t, heq, hb, ht⟩
      · simp at h0
      · rw [List.cons_append] at heq
        injection heq with h1 h2
        have hlen' : s₁'.length ≤ n := by
          simp only [List.length_cons] at hlen; omega
        have hmem' : d ∉ s₁' := fun hh => hmem (List.mem_cons_of_mem x hh)
        obtain ⟨B1, B2⟩ := ih s₁' s₂ hlen' (h2 ▸ ht) hmem'
        exact ⟨Blocks.chr x (h1 ▸ hc) _ B1, B2⟩
      · have hdb : d ∉ b := delim_not_in_blockList d hd b hb
        obtain ⟨u, hu1, hu2⟩ :=
          append_eq_append_mid d b t (x :: s₁') s₂ heq.symm hdb hmem
        have hbne : b ≠ [] := blockList_ne_nil b hb
        have hb1 : 1 ≤ b.length := List.length_pos.mpr hbne
        have hulen : u.length ≤ n := by
          have hl := congrArg List.length hu1
          simp only [List.length_cons, List.length_append] at hl hlen
          omega
        have hdu : d ∉ u :=
          fun hh => hmem (hu1 ▸ List.mem_append.mpr (Or.inr hh))
        obtain ⟨B1, B2⟩ := ih u s₂ hulen (hu2 ▸ ht) hdu
        refine ⟨?_, B2⟩
        rw [hu1]
        exact Blocks.blk b hb u B1

lemma escapeHtml_blocks : ∀ s : List Char, Blocks (escapeHtml s) := by
  intro s
  induction s with
  | nil => exact Blocks.nil
  | cons c cs ih =>
    show Blocks (escChar c ++ escapeHtml cs)
    unfold escChar
    split_ifs with h1 h2 h3 h4 h5
    · exact Blocks.blk _ (by decide) _ ih
    · exact Blocks.blk _ (by decide) _ ih
    · exact Blocks.blk _ (by decide) _ ih
    · exact Blocks.blk _ (by decide) _ ih
    · exact Blocks.blk _ (by decide) _ ih
    · simp only [List.singleton_append]
      exact Blocks.chr c ⟨h2, h3, h1⟩ _ ih

lemma spanRepl_blocks (d : Char) (hd : d ∈ delims) (o c : List Char)
    (ho : o ∈ blockList) (hc : c ∈ blockList) :
    ∀ (n : Nat) (s : List Char), s.length ≤ n → Blocks s →
      Blocks (spanRepl d o c s) := by
  intro n
  induction n with
  | zero =>
    intro s hlen hB
    have hnil : s = [] := List.eq_nil_of_length_eq_zero (Nat.le_zero.mp hlen)
    subst hnil
    rw [spanRepl_nil]
    exact Blocks.nil
  | succ n ih =>
    intro s hlen hB
    cases hB with
    | nil => rw [spanRepl_nil]; exact Blocks.nil
    | chr x hx t ht =>
      have hlent : t.length ≤ n := by
        simp only [List.length_cons] at hlen; omega
      by_cases hxd : x = d
      · rw [hxd]
        cases hF : findSpan d t with
        | none =>
          rw [spanRepl_cons_d_none d o c t hF]
          exact Blocks.chr d (hxd ▸ hx) _ (ih t hlent ht)
        | some pr =>
          obtain ⟨run, rest⟩ := pr
          obtain ⟨hteq, hne, hdrun⟩ := findSpan_eq d t run rest hF
          rw [spanRepl_cons_d_some d o c t run rest hF]
          have hrunlen : run.length ≤ n := by
            have := congrArg List.length hteq
            simp only [List.length_append, List.length_cons] at this
            omega
          have hrestlen : rest.length ≤ n := by
            have := congrArg List.length hteq
            simp only [List.length_append, List.length_cons] at this
            omega
          obtain ⟨Brun, Brest⟩ := blocks_split d hd n run rest hrunlen (hteq ▸ ht) hdrun
          exact Blocks.blk o ho _
            (blocks_append _ _ Brun (Blocks.blk c hc _ (ih rest hrestlen Brest)))
      · rw [spanRepl_cons_ne d o c x t hxd]
        exact Blocks.chr x hx _ (ih t hlent ht)
    | blk b hb t ht =>
      have hbd : d ∉ b := delim_not_in_blockList d hd b hb
      have hb1 : 1 ≤ b.length := List.length_pos.mpr (blockList_ne_nil b hb)
      have hlent : t.length ≤ n := by
        simp only [List.length_append] at hlen; omega
      rw [spanRepl_append_no_d d o c b t hbd]
      exact Blocks.blk b hb _ (ih t hlent ht)

/-! ## Helper lemmas for the phone normalizer -/

lemma stripPhone_mem_isDigit (s : List Char) : ∀ c ∈ stripPhone s, c.isDigit = true :=
  fun _ hc => List.of_mem_filter hc

lemma stripPhone_of_digits (l : List Char) (h : ∀ c ∈ l, c.isDigit = true) :
    stripPhone l = l :=
  List.filter_eq_self.mpr h

lemma stripPhone_length_mono_append (a b : List Char) :
    stripPhone (a ++ b) = stripPhone a ++ stripPhone b := by
  simp [stripPhone]

/-! ## Theorems for the claims C1 to C6 -/

/-- C1: the phone normalizer maps `84 123 4567` with default country
code 258 to `258841234567`, `+258841234567` to `258841234567`, and
`258841234567` to `258841234567`; in general, after stripping, a number
whose digit count equals the configured local length and which does not
already start with the configured country code gets the default country
code prepended, and any other (dialable) number passes through
unchanged. -/
theorem phone_normalizer_examples_and_rule :
    (normalize_phone cfg258 "84 123 4567".data = some "258841234567".data ∧
     normalize_phone cfg258 "+258841234567".data = some "258841234567".data ∧
     normalize_phone cfg258 "258841234567".data = some "258841234567".data) ∧
    (∀ (cfg : PhoneConfig) (s : List Char),
      cfg.minDigits ≤ (stripPhone s).length →
      (stripPhone s).length = cfg.localLength →
      leadsWith cfg.countryCode (stripPhone s) = false →
      normalize_phone cfg s = some (cfg.countryCode ++ stripPhone s)) ∧
    (∀ (cfg : PhoneConfig) (s : List Char),
      cfg.minDigits ≤ (stripPhone s).length →
      ¬((stripPhone s).length = cfg.localLength ∧
        leadsWith cfg.countryCode (stripPhone s) = false) →
      normalize_phone cfg s = some (stripPhone s)) := by
  refine ⟨⟨by decide, by decide, by decide⟩, ?_, ?_⟩
  · intro cfg s h1 h2 h3
    simp only [normalize_phone]
    rw [if_neg (by omega), if_pos ⟨h2, h3⟩]
  · intro cfg s h1 h2
    simp only [normalize_phone]
    rw [if_neg (by omega), if_neg h2]

theorem phone_normalizer_examples_and_rule_witness :
    normalize_phone cfg258 "84 123 4567".data =
      some (cfg258.countryCode ++ stripPhone "84 123 4567".data) :=
  phone_normalizer_examples_and_rule.2.1 cfg258 "84 123 4567".data
    (by decide) (by decide) (by decide)

/-- Successful normalization yields a fixed point of the normalizer. -/
lemma normalize_phone_fixed_point :
    ∀ (cfg : PhoneConfig) (s : List Char),
      (∀ c ∈ cfg.countryCode, c.isDigit = true) →
      cfg.minDigits = 7 →
      7 ≤ (stripPhone s).length →
      ∃ y, normalize_phone cfg s = some y ∧ normalize_phone cfg y = some y := by
  intro cfg s hcc hmin hlen
  have hdd : ∀ c ∈ stripPhone s, c.isDigit = true := stripPhone_mem_isDigit s
  have hnlt : ¬ (stripPhone s).length < cfg.minDigits := by omega
  by_cases hc : (stripPhone s).length = cfg.localLength ∧
      leadsWith cfg.countryCode (stripPhone s) = false
  · refine ⟨cfg.countryCode ++ stripPhone s, ?_, ?_⟩
    · simp only [normalize_phone]
      rw [if_neg hnlt, if_pos hc]
    · have hccne : cfg.countryCode ≠ [] := by
        intro h
        rw [h] at hc
        exact absurd hc.2 (by simp [leadsWith])
      have hstrip : stripPhone (cfg.countryCode ++ stripPhone s) =
          cfg.countryCode ++ stripPhone s := by
        apply stripPhone_of_digits
        intro c hcmem
        rcases List.mem_append.mp hcmem with h | h
        · exact hcc c h
        · exact hdd c h
      have hleny : (cfg.countryCode ++ stripPhone s).length =
          cfg.countryCode.length + (stripPhone s).length := by
        simp
      simp only [normalize_phone, hstrip]
      rw [if_neg ?hlong, if_neg ?hpass]
      case hlong =>
        rw [hleny]; omega
      case hpass =>
        rintro ⟨hL, -⟩
        rw [hleny, hc.1] at hL
        have : cfg.countryCode.length = 0 := by omega
        exact hccne (List.length_eq_zero.mp this)
  · refine ⟨stripPhone s, ?_, ?_⟩
    · simp only [normalize_phone]
      rw [if_neg hnlt, if_neg hc]
    · have hstrip : stripPhone (stripPhone s) = stripPhone s :=
        stripPhone_of_digits _ hdd
      simp only [normalize_phone, hstrip]
      rw [if_neg hnlt, if_neg hc]

/-- C2: for every raw input keeping at least seven significant digits
after stripping, normalization succeeds and is idempotent —
`normalize (normalize x) = normalize x` (for any configuration whose
country code is made of digits). -/
theorem phone_normalizer_idempotent :
    ∀ (cfg : PhoneConfig) (s : List Char),
      (∀ c ∈ cfg.countryCode, c.isDigit = true) →
      cfg.minDigits = 7 →
      7 ≤ (stripPhone s).length →
      (normalize_phone cfg s).isSome = true ∧
      (normalize_phone cfg s).bind (normalize_phone cfg) = normalize_phone cfg s := by
  intro cfg s hcc hmin hlen
  obtain ⟨y, h1, h2⟩ := normalize_phone_fixed_point cfg s hcc hmin hlen
  rw [h1]
  exact ⟨rfl, by simpa using h2⟩

theorem phone_normalizer_idempotent_witness :
    (normalize_phone cfg258 "84 123 4567".data).isSome = true ∧
    (normalize_phone cfg258 "84 123 4567".data).bind (normalize_phone cfg258) =
      normalize_phone cfg258 "84 123 4567".data :=
  phone_normalizer_idempotent cfg258 "84 123 4567".data
    (by decide) (by decide) (by decide)

/-- C3: the explicit retry action succeeds exactly on entries whose
status is `Failed` or `Cancelled`; when it applies it sets the status to
`Queued` and leaves `retry_count` unchanged; and no other operation of
the state machine applies to a `Failed` or `Cancelled` entry. -/
theorem retry_action_guard_and_terminal :
    ∀ e : LogEntry,
      ((step .retry e).isSome ↔ (e.status = .failed ∨ e.status = .cancelled)) ∧
      (∀ e₂, step .retry e = some e₂ →
        e₂.status = .queued ∧ e₂.retry_count = e.retry_count) ∧
      (∀ a : Action, a ≠ .retry →
        (e.status = .failed ∨ e.status = .cancelled) → step a e = none) := by
  intro e
  refine ⟨?_, ?_, ?_⟩
  · by_cases h : e.status = .failed ∨ e.status = .cancelled <;> simp [step, h]
  · intro e₂ h
    by_cases hs : e.status = .failed ∨ e.status = .cancelled
    · simp only [step, if_pos hs, Option.some_inj] at h
      subst h; simp
    · simp [step, hs] at h
  · intro a ha hterm
    cases a <;> first
      | exact absurd rfl ha
      | (rcases hterm with h | h <;> simp [step, h])

theorem retry_action_guard_and_terminal_witness :
    step .cancel { status := .failed, retry_count := 2 : LogEntry } = none :=
  (retry_action_guard_and_terminal _).2.2 .cancel (by decide) (Or.inl rfl)

/-- C4: a user cancel is honored exactly while the entry is `Pending` or
`Queued`; from `Sending`, `Sent`, `Delivered`, `Read` or `Failed` the
cancel action is a state-conflict no-op, and every successful cancel
starts from `Pending` or `Queued` and ends `Cancelled`. -/
theorem cancel_only_pending_or_queued :
    ∀ e : LogEntry,
      ((step .cancel e).isSome ↔ (e.status = .pending ∨ e.status = .queued)) ∧
      ((e.status = .sending ∨ e.status = .sent ∨ e.status = .delivered ∨
        e.status = .read ∨ e.status = .failed) → step .cancel e = none) ∧
      (∀ e₂, step .cancel e = some e₂ →
        (e.status = .pending ∨ e.status = .queued) ∧ e₂.status = .cancelled) := by
  intro e
  refine ⟨?_, ?_, ?_⟩
  · by_cases h : e.status = .pending ∨ e.status = .queued <;> simp [step, h]
  · intro h
    have : ¬ (e.status = .pending ∨ e.status = .queued) := by
      rcases h with h | h | h | h | h <;> simp [h]
    simp [step, this]
  · intro e₂ h
    by_cases hs : e.status = .pending ∨ e.status = .queued
    · simp only [step, if_pos hs, Option.some_inj] at h
      subst h; exact ⟨hs, rfl⟩
    · simp [step, hs] at h

theorem cancel_only_pending_or_queued_witness :
    step .cancel { status := .sending, retry_count := 0 : LogEntry } = none :=
  (cancel_only_pending_or_queued _).2.1 (Or.inl rfl)

/-- C5: automatic retry eligibility holds exactly when the entry is
`Failed`, its retry count is below the maximum, and the current time has
reached `last_updated + base_interval * 2 ^ retry_count` capped at the
maximum interval; a `Failed` entry with `retry_count = 2` and
`max_retries = 3` is re-queued by a tick once its window elapses, and an
entry whose retry count has reached the maximum is never again touched
by the automatic scheduler. -/
theorem auto_retry_eligibility :
    ∀ (cfg : RetryConfig) (now : Nat) (e : LogEntry),
      (autoEligible cfg now e ↔
        (e.status = .failed ∧ e.retry_count < cfg.maxRetries ∧
          e.last_updated + min (cfg.baseInterval * 2 ^ e.retry_count) cfg.maxInterval
            ≤ now)) ∧
      (cfg.maxRetries = 3 → e.status = .failed → e.retry_count = 2 →
        nextEligible cfg e ≤ now →
        tickEntry cfg now e = { e with status := .queued }) ∧
      (cfg.maxRetries ≤ e.retry_count →
        ¬ autoEligible cfg now e ∧ tickEntry cfg now e = e) := by
  intro cfg now e
  refine ⟨Iff.rfl, ?_, ?_⟩
  · intro hmax hf hrc hle
    have hel : autoEligible cfg now e := ⟨hf, by omega, hle⟩
    simp [tickEntry, hel, step, hf]
  · intro hge
    have hnel : ¬ autoEligible cfg now e := by
      rintro ⟨-, hlt, -⟩; omega
    exact ⟨hnel, by simp [tickEntry, hnel]⟩

theorem auto_retry_eligibility_witness :
    tickEntry { maxRetries := 3, baseInterval := 10, maxInterval := 1000 } 40
        { status := .failed, retry_count := 2, last_updated := 0 } =
      { status := .queued, retry_count := 2, last_updated := 0 } :=
  (auto_retry_eligibility _ 40 _).2.1 rfl rfl rfl (by decide)

/-- C6: from a `Sending` entry both the mark-sent and the mark-failed
transitions are individually applicable, but in either serialization of
the two concurrent attempts the first one applied wins and the second
observes a state-conflict no-op, so exactly one of them takes effect. -/
theorem concurrent_sending_transitions_exclusive :
    ∀ (e : LogEntry) (id msg : String),
      e.status = .sending →
      (step (.sendResult (some id)) e).isSome = true ∧
      (step (.transportError msg) e).isSome = true ∧
      (step (.sendResult (some id)) e).bind (step (.transportError msg)) = none ∧
      (step (.transportError msg) e).bind (step (.sendResult (some id))) = none := by
  intro e id msg hs
  refine ⟨by simp [step, hs], by simp [step, hs], ?_, ?_⟩ <;>
    simp [step, hs]

theorem concurrent_sending_transitions_exclusive_witness :
    (step (.sendResult (some "provider-id-1"))
        { status := .sending, retry_count := 0 : LogEntry }).isSome = true ∧
    (step (.transportError "timeout")
        { status := .sending, retry_count := 0 : LogEntry }).isSome = true ∧
    (step (.sendResult (some "provider-id-1"))
        { status := .sending, retry_count := 0 : LogEntry }).bind
      (step (.transportError "timeout")) = none ∧
    (step (.transportError "timeout")
        { status := .sending, retry_count := 0 : LogEntry }).bind
      (step (.sendResult (some "provider-id-1"))) = none :=
  concurrent_sending_transitions_exclusive _ "provider-id-1" "timeout" rfl

/-- C7: matching and dispatch isolate per-rule and per-recipient
errors.  Matching a batch of rules is the concatenation of matching its
parts, membership in the matched set depends only on the rule itself
(so a condition-evaluation error on one rule excludes only that rule),
the dispatch outcome of the i-th matched rule depends only on that
rule, and recipient normalization of a batch is the concatenation of
its parts (so one invalid phone never drops a sibling recipient). -/
theorem rule_error_isolation :
    (∀ (evalC : Rule → Except String Bool) (ev : Event) (rs₁ rs₂ : List Rule),
      matchRules evalC ev (rs₁ ++ rs₂) =
        matchRules evalC ev rs₁ ++ matchRules evalC ev rs₂) ∧
    (∀ (evalC : Rule → Except String Bool) (ev : Event) (rules : List Rule)
        (r : Rule),
      r ∈ matchRules evalC ev rules ↔
        r ∈ rules ∧ structMatch ev r = true ∧ condOk evalC r = true) ∧
    (∀ (render : Rule → Except String String)
        (resolve : Rule → List (List Char)) (cfg : PhoneConfig)
        (rules : List Rule) (i : Nat),
      (dispatchMatched render resolve cfg rules)[i]? =
        (rules[i]?).map (processRule render resolve cfg)) ∧
    (∀ (cfg : PhoneConfig) (ps₁ ps₂ : List (List Char)),
      normalizeBatch cfg (ps₁ ++ ps₂) =
        normalizeBatch cfg ps₁ ++ normalizeBatch cfg ps₂) := by
  refine ⟨?_, ?_, ?_, ?_⟩
  · intro evalC ev rs₁ rs₂
    simp [matchRules, List.filter_append]
  · intro evalC ev rules r
    simp [matchRules, List.mem_filter, Bool.and_eq_true]
  · intro render resolve cfg rules i
    simp [dispatchMatched, List.getElem?_map]
  · intro cfg ps₁ ps₂
    simp [normalizeBatch, List.filterMap_append]

/-- C8: reading the phone field as a dot-path never raises — a missing
field at any point of the path yields the empty string — and a rule
whose phone field resolves to the empty string resolves to zero
recipients, so its dispatch creates zero message-log entries and
reports success, not an error. -/
theorem field_value_empty_resolves_to_zero_entries :
    (∀ ps : List String, phone_path_walk JSVal.undef ps = .str "") ∧
    (∀ (doc : JSVal) (pf : String),
      get_phone_from_doc doc pf = .str "" →
      resolveFieldValue doc pf = [] ∧
      ∀ (cfg : PhoneConfig) (body : String),
        dispatchFieldValue cfg doc pf body = .ok []) := by
  constructor
  · intro ps
    cases ps <;> simp [phone_path_walk, truthy]
  · intro doc pf h
    have hres : resolveFieldValue doc pf = [] := by
      simp [resolveFieldValue, h]
    refine ⟨hres, ?_⟩
    intro cfg body
    simp [dispatchFieldValue, hres, normalizeBatch]

theorem field_value_empty_resolves_to_zero_entries_witness :
    resolveFieldValue (JSVal.obj [("name", JSVal.str "SO-0001")])
        "customer.mobile_no" = [] ∧
    dispatchFieldValue cfg258 (JSVal.obj [("name", JSVal.str "SO-0001")])
        "customer.mobile_no" "hello" = .ok [] := by
  have h := (field_value_empty_resolves_to_zero_entries).2
    (JSVal.obj [("name", JSVal.str "SO-0001")]) "customer.mobile_no" rfl
  exact ⟨h.1, h.2 cfg258 "hello"⟩

/-- C10: `format_file_size` yields `0 B` for zero bytes; for
`1 ≤ bytes < 1024 ^ 4` the computed index stays below the length of the
four-element unit array, so the array access is in bounds and the
result carries one of the four units; for `bytes ≥ 1024 ^ 4` the index
reaches past the end of the array. -/
theorem format_file_size_bounds :
    (format_file_size_unit 0 = some "B") ∧
    (∀ b : Nat, 1 ≤ b → b < 1024 ^ 4 →
      file_size_index b < 4 ∧
      (format_file_size_unit b).isSome = true ∧
      (format_file_size_unit b).getD "" ∈ sizes) ∧
    (∀ b : Nat, 1024 ^ 4 ≤ b →
      4 ≤ file_size_index b ∧ format_file_size_unit b = none) := by
  refine ⟨rfl, ?_, ?_⟩
  · intro b hb1 hb2
    have hidx : file_size_index b < 4 := by
      have := (Nat.lt_pow_iff_log_lt (by norm_num) (by omega)).mp hb2
      simpa [file_size_index] using this
    have hlen : file_size_index b < sizes.length := by
      simpa [sizes] using hidx
    have hbne : b ≠ 0 := by omega
    refine ⟨hidx, ?_, ?_⟩
    · simp [format_file_size_unit, hbne, List.getElem?_eq_getElem hlen]
    · simp only [format_file_size_unit, hbne, if_neg hbne,
        List.getElem?_eq_getElem hlen, Option.getD_some]
      exact List.getElem_mem hlen
  · intro b hb
    have hbne : b ≠ 0 := by positivity
    have hidx : 4 ≤ file_size_index b := by
      have := (Nat.pow_le_iff_le_log (by norm_num) hbne).mp hb
      simpa [file_size_index] using this
    refine ⟨hidx, ?_⟩
    have : sizes.length ≤ file_size_index b := by simpa [sizes] using hidx
    simp [format_file_size_unit, hbne, List.getElem?_eq_none this]

theorem format_file_size_bounds_witness :
    file_size_index 1536 < 4 ∧
    (format_file_size_unit 1536).isSome = true ∧
    (format_file_size_unit 1536).getD "" ∈ sizes :=
  format_file_size_bounds.2.1 1536 (by norm_num) (by norm_num)

/-- C9: `format_whatsapp_text` is exactly HTML-escaping followed by the
four span replacements (bold, italic, strike, monospace, in that
order), and its output is made only of plain characters other than
`<`, `>`, `&`, of the five escape entities, and of the four generated
element tags — so every special character of the input appears only in
escaped form and the only raw tags are the generated ones. -/
theorem format_whatsapp_text_blocks :
    ∀ s : List Char,
      format_whatsapp_text s =
        spanRepl charBacktick "<code>".data "</code>".data
          (spanRepl '~' "<s>".data "</s>".data
            (spanRepl '_' "<i>".data "</i>".data
              (spanRepl '*' "<b>".data "</b>".data (escapeHtml s)))) ∧
      Blocks (format_whatsapp_text s) := by
  intro s
  refine ⟨rfl, ?_⟩
  have h0 := escapeHtml_blocks s
  have h1 := spanRepl_blocks '*' (by decide) "<b>".data "</b>".data
    (by decide) (by decide) _ _ le_rfl h0
  have h2 := spanRepl_blocks '_' (by decide) "<i>".data "</i>".data
    (by decide) (by decide) _ _ le_rfl h1
  have h3 := spanRepl_blocks '~' (by decide) "<s>".data "</s>".data
    (by decide) (by decide) _ _ le_rfl h2
  have h4 := spanRepl_blocks charBacktick (by decide) "<code>".data "</code>".data
    (by decide) (by decide) _ _ le_rfl h3
  exact h4

end WhatsappIntegration
